import Mathlib

/-!
# Verification of the `stashdir` store module and CLI dispatch

Shallow embedding of `internal/store/store.go` and the `remove` dispatch of
`cmd/stashdir/main.go` from the `dmundt/stashdir` repository.

Paths are Lean `String`s (Go strings compare bytewise; for the UTF-8 strings
involved here this agrees with the code-point lexicographic order used by
Lean's `String` order).  The filesystem is abstracted to the state of the one
backing file plus a flag saying whether writes succeed; `os.UserConfigDir` /
`os.MkdirAll` outcomes are Booleans.  Machine integers that matter
(`parseIndex`'s Go `int`) are modelled as `Int` with the explicit 64-bit
bounds check Go's scanner performs.
-/

namespace Stashdir

/-- Character class of Go's `unicode.IsSpace` (the runes trimmed by
`strings.TrimSpace`): ASCII whitespace plus the Latin-1 and Unicode
white-space code points of Go's `unicode.White_Space` table. -/
def goIsSpace (c : Char) : Bool :=
  c == ' ' || c == '\t' || c == '\n' || c == (Char.ofNat 11) ||
  c == (Char.ofNat 12) || c == '\r' || c == (Char.ofNat 0x85) ||
  c == (Char.ofNat 0xA0) || c == (Char.ofNat 0x1680) ||
  (decide (0x2000 ≤ c.toNat) && decide (c.toNat ≤ 0x200A)) ||
  c == (Char.ofNat 0x2028) || c == (Char.ofNat 0x2029) ||
  c == (Char.ofNat 0x202F) || c == (Char.ofNat 0x205F) ||
  c == (Char.ofNat 0x3000)

/-- Go's `strings.TrimSpace` on the character list: drop leading and trailing
white-space characters. -/
def trimSpaceL (cs : List Char) : List Char :=
  ((cs.dropWhile goIsSpace).reverse.dropWhile goIsSpace).reverse

/-- Go's `strings.TrimSpace`. -/
def trimSpace (s : String) : String := ⟨trimSpaceL s.data⟩

/-- Go's `strings.ToLower`, restricted to the ASCII simple case mapping
(`'A'..'Z' ↦ 'a'..'z'`).  Go additionally lower-cases non-ASCII letters; no
path in the repository's tests or in the claims contains such letters, and
every theorem below that depends on case folding only uses the fact that the
mapping is idempotent and leaves `'/'`, `'.'` and white space unchanged,
which holds of the full mapping as well. -/
def toLowerChar (c : Char) : Char :=
  if 65 ≤ c.toNat ∧ c.toNat ≤ 90 then Char.ofNat (c.toNat + 32) else c

/-- Go's `strings.ToLower` (see `toLowerChar`). -/
def lowerStr (s : String) : String := ⟨s.data.map toLowerChar⟩

/-- Split a character list at `'/'` separators; `splitSlash cs` is the list
of separator-free segments, as in `strings.Split(s, "/")`.  Used to express
the element scan of `path/filepath.Clean`. -/
def splitSlash (cs : List Char) : List (List Char) :=
  match cs with
  | [] => [[]]
  | c :: rest =>
    match splitSlash rest with
    | [] => [[]]
    | g :: gs => if c = '/' then [] :: g :: gs else (c :: g) :: gs

/-- The element loop of `path/filepath.Clean`: process the slash-separated
elements left to right, keeping an accumulator of output elements in
reverse order.  Empty elements and `"."` are dropped; `".."` pops the last
real output element when there is one (`out.w > dotdot` in the Go code),
is dropped at the root when `rooted`, and is kept otherwise. -/
def cleanRun (rooted : Bool) : List (List Char) → List (List Char) → List (List Char)
  | acc, [] => acc.reverse
  | acc, e :: es =>
    if e = [] then cleanRun rooted acc es
    else if e = ['.'] then cleanRun rooted acc es
    else if e = ['.', '.'] then
      match acc with
      | [] => if rooted then cleanRun rooted [] es else cleanRun rooted [e] es
      | a :: rest =>
        if a = ['.', '.'] then cleanRun rooted (e :: a :: rest) es
        else cleanRun rooted rest es
    else cleanRun rooted (e :: acc) es

/-- Join path elements with `'/'` separators. -/
def joinSlash (ps : List (List Char)) : List Char := (ps.intersperse ['/']).flatten

/-- Go's `path/filepath.Clean` for a `'/'`-separated path (the Unix build of the
repository): purely lexical cleaning — collapse repeated separators, drop
`"."` elements, resolve `".."` elements against preceding ones, keep leading
`".."`s of relative paths, never leave a trailing separator, and return `"."`
for an empty result.  (On Windows `filepath.Clean` additionally recognises
volume names and rewrites `'/'` to `'\\'`; the Windows-mode theorems below
only use inputs without separators or volume names, on which the two
platform variants agree character for character.) -/
def clean (s : String) : String :=
  match s.data with
  | [] => "."
  | c :: cs =>
    let rooted := c = '/'
    let parts := cleanRun rooted [] (splitSlash (c :: cs))
    if rooted then ⟨'/' :: joinSlash parts⟩
    else
      match parts with
      | [] => "."
      | _ => ⟨joinSlash parts⟩

/-- The function `normalize` from `store.go`: trim white space, clean lexically, and on
Windows (`os.PathSeparator == '\\'`, here the flag `isWin`) lower-case the
result.  Note the lower-cased string is what `normalize` *returns*; the
caller `Add` stores this return value. -/
def normalize (isWin : Bool) (p : String) : String :=
  let p1 := trimSpace p
  let p2 := clean p1
  if isWin then lowerStr p2 else p2

/-- Go's `<` on strings compares byte sequences lexicographically; on UTF-8
strings that is the same as comparing the code-point sequences
lexicographically, which is what this boolean comparison computes. -/
def lexLt : List Char → List Char → Bool
  | [], [] => false
  | [], _ :: _ => true
  | _ :: _, [] => false
  | a :: as, b :: bs =>
    if a.toNat < b.toNat then true
    else if b.toNat < a.toNat then false
    else lexLt as bs

/-- The comparator closure of `sortInPlace`:
`strings.ToLower(Items[i]) < strings.ToLower(Items[j])`. -/
def lowerLt (a b : String) : Bool := lexLt (lowerStr a).data (lowerStr b).data

/-- The relation `lower a ≤ lower b`, the non-strict companion of `lowerLt`; the claims'
sortedness statements are phrased with it. -/
def lowerLe (a b : String) : Prop := lowerLt b a = false

instance (a b : String) : Decidable (lowerLe a b) := by
  unfold lowerLe
  infer_instance

/-- The element inserted by Go's insertion sort settles *after* every element
`y` of the sorted prefix that does not compare strictly greater: `x` moves
left past `y` only while `lower x < lower y`, so `x` ends up after all `y`
with `lower y ≤ lower x` (ties included). -/
def insertAfterTies (x : String) : List String → List String
  | [] => [x]
  | y :: ys => if lowerLt x y then x :: y :: ys else y :: insertAfterTies x ys

/-- Method `(*DB).sortInPlace` sorts `Items` with
`sort.Slice(Items, func(i, j) { return ToLower(Items[i]) < ToLower(Items[j]) })`.
`sort.Slice` is Go's pdqsort, which for slices of at most 12 elements is
exactly the insertion sort modelled here (left-to-right insertion, each
element settling after equal-comparing ones); for longer slices it sorts by
the same comparator but gives no tie-order guarantee (see `goPdqsort` below,
a transcription of the full algorithm, used to analyse the tie order). -/
def sortInPlace (l : List String) : List String :=
  l.foldl (fun acc x => insertAfterTies x acc) []

/-! ### Go's `sort.Slice`: a transcription of the standard library pdqsort

`sort.Slice` runs `pdqsort_func` (`sort/zsortfunc.go`, Go 1.19+) with
`limit = bits.Len(uint(n))`.  The definitions below transcribe that file
for `sortInPlace`'s comparator, operating on a `List String` by index
(`lget`/`lswap`).  Every Go loop is written with an explicit fuel argument
chosen by its caller to exceed the iterations the loop can make, so the
fuel never runs out; on exhaustion the state is returned unchanged.
`goSortSlice` is the entry point.  `sortInPlace` above models the ≤ 12
element regime of this algorithm (its insertion sort, which is stable);
`goSortSlice` exhibits the tie behaviour beyond it. -/

def lget (l : List String) (i : Nat) : String := l.getD i ""

def lswap (l : List String) (i j : Nat) : List String :=
  (l.set i (lget l j)).set j (lget l i)

def lless (l : List String) (i j : Nat) : Bool := lowerLt (lget l i) (lget l j)

/-- Go's `insertionSort_func`, inner loop: bubble the element at `j` left while
it compares strictly below its left neighbour and `j > a`. -/
def insSortInner (a : Nat) : List String → Nat → List String
  | l, 0 => l
  | l, j + 1 =>
    if a ≤ j ∧ lless l (j + 1) j then insSortInner a (lswap l (j + 1) j) j else l

/-- Go's `insertionSort_func`, outer loop over `i = a+1 .. b-1`. -/
def insSortLoop (a b : Nat) : List String → Nat → Nat → List String
  | l, _, 0 => l
  | l, i, fuel + 1 =>
    if i < b then insSortLoop a b (insSortInner a l i) (i + 1) fuel else l

def insertionSortRange (l : List String) (a b : Nat) : List String :=
  insSortLoop a b l (a + 1) (b + 1)

/-- Go's `siftDown_func`. -/
def siftDownLoop (first hi : Nat) : List String → Nat → Nat → List String
  | l, _, 0 => l
  | l, root, fuel + 1 =>
    if 2 * root + 1 ≥ hi then l
    else
      let child :=
        if 2 * root + 2 < hi ∧ lless l (first + 2 * root + 1) (first + 2 * root + 2)
        then 2 * root + 2 else 2 * root + 1
      if ¬ lless l (first + root) (first + child) then l
      else siftDownLoop first hi (lswap l (first + root) (first + child)) child fuel

def siftDown (l : List String) (lo hi first : Nat) : List String :=
  siftDownLoop first hi l lo (hi + 1)

/-- Go's `heapSort_func`, heap-construction loop (`i = (hi-1)/2` down to `0`). -/
def heapBuild (hi first : Nat) : List String → Nat → List String
  | l, 0 => siftDown l 0 hi first
  | l, i + 1 => heapBuild hi first (siftDown l (i + 1) hi first) i

/-- Go's `heapSort_func`, pop loop (`i = hi-1` down to `0`). -/
def heapPop (first : Nat) : List String → Nat → List String
  | l, 0 => siftDown (lswap l first first) 0 0 first
  | l, i + 1 => heapPop first (siftDown (lswap l first (first + i + 1)) 0 (i + 1) first) i

def heapSortRange (l : List String) (a b : Nat) : List String :=
  heapPop a (heapBuild (b - a) a l ((b - a - 1) / 2)) (b - a - 1)

inductive SortHint
  | unknown | increasing | decreasing
  deriving DecidableEq, Repr

/-- Go's `order2_func`: the two indices with the smaller-comparing first, and the
updated swap count. -/
def order2 (l : List String) (i j swaps : Nat) : Nat × Nat × Nat :=
  if lless l j i then (j, i, swaps + 1) else (i, j, swaps)

/-- Go's `median_func`. -/
def medianIdx (l : List String) (i j k swaps : Nat) : Nat × Nat :=
  let r1 := order2 l i j swaps
  let r2 := order2 l r1.2.1 k r1.2.2
  let r3 := order2 l r1.1 r2.1 r2.2.2
  (r3.2.1, r3.2.2)

/-- Go's `medianAdjacent_func`. -/
def medianAdjacent (l : List String) (i swaps : Nat) : Nat × Nat :=
  medianIdx l (i - 1) i (i + 1) swaps

/-- Go's `choosePivot_func`: the candidate pivot index and the sortedness hint
(`increasing` when no comparison was out of order, `decreasing` when all
twelve were). -/
def choosePivot (l : List String) (a b : Nat) : Nat × SortHint :=
  let len := b - a
  let i0 := a + len / 4 * 1
  let j0 := a + len / 4 * 2
  let k0 := a + len / 4 * 3
  let js : Nat × Nat :=
    if len ≥ 8 then
      if len ≥ 50 then
        let r1 := medianAdjacent l i0 0
        let r2 := medianAdjacent l j0 r1.2
        let r3 := medianAdjacent l k0 r2.2
        medianIdx l r1.1 r2.1 r3.1 r3.2
      else medianIdx l i0 j0 k0 0
    else (j0, 0)
  (js.1, if js.2 = 0 then .increasing else if js.2 = 12 then .decreasing else .unknown)

/-- Go's `reverseRange_func`. -/
def reverseLoop : List String → Nat → Nat → Nat → List String
  | l, _, _, 0 => l
  | l, i, j, fuel + 1 => if i < j then reverseLoop (lswap l i j) (i + 1) (j - 1) fuel else l

def reverseRange (l : List String) (a b : Nat) : List String :=
  reverseLoop l a (b - 1) (b + 1)

/-- Go's `partialInsertionSort_func`, forward scan for the first out-of-order
adjacent pair. -/
def scanSortedFrom (l : List String) (b : Nat) : Nat → Nat → Nat
  | i, 0 => i
  | i, fuel + 1 =>
    if i < b ∧ ¬ lless l i (i - 1) then scanSortedFrom l b (i + 1) fuel else i

/-- Go's `partialInsertionSort_func`, shift the smaller element left
(`j = i-1` down while `j ≥ 1` and the pair is out of order). -/
def shiftLeftLoop : Nat → List String → List String
  | 0, l => l
  | j + 1, l => if ¬ lless l (j + 1) j then l else shiftLeftLoop j (lswap l (j + 1) j)

/-- Go's `partialInsertionSort_func`, shift the greater element right. -/
def shiftRightLoop (b : Nat) : List String → Nat → Nat → List String
  | l, _, 0 => l
  | l, j, fuel + 1 =>
    if j < b then
      if ¬ lless l j (j - 1) then l else shiftRightLoop b (lswap l j (j - 1)) (j + 1) fuel
    else l

/-- Go's `partialInsertionSort_func`: up to five out-of-order pairs get repaired
(only on ranges of at least 50 elements); returns the data and whether the
range ended fully sorted. -/
def partialInsAux (a b : Nat) : List String → Nat → Nat → List String × Bool
  | l, _, 0 => (l, false)
  | l, i, step + 1 =>
    let i1 := scanSortedFrom l b i (b + 1)
    if i1 = b then (l, true)
    else if b - a < 50 then (l, false)
    else
      let l1 := lswap l i1 (i1 - 1)
      let l2 := if i1 - a ≥ 2 then shiftLeftLoop (i1 - 1) l1 else l1
      let l3 := if b - i1 ≥ 2 then shiftRightLoop b l2 (i1 + 1) (b + 1) else l2
      partialInsAux a b l3 i1 step

def partialInsertionSort (l : List String) (a b : Nat) : List String × Bool :=
  partialInsAux a b l (a + 1) 5

/-- Go's `partition_func`, advance `i` while the element is below the pivot at
`a`. -/
def partAdvance (l : List String) (a j : Nat) : Nat → Nat → Nat
  | i, 0 => i
  | i, fuel + 1 => if i ≤ j ∧ lless l i a then partAdvance l a j (i + 1) fuel else i

/-- Go's `partition_func`, retreat `j` while the element is not below the pivot. -/
def partRetreat (l : List String) (a i : Nat) : Nat → Nat → Nat
  | j, 0 => j
  | j, fuel + 1 => if i ≤ j ∧ ¬ lless l j a then partRetreat l a i (j - 1) fuel else j

def partLoop (a b : Nat) : List String → Nat → Nat → Nat → List String × Nat
  | l, _, j, 0 => (l, j)
  | l, i, j, fuel + 1 =>
    let i1 := partAdvance l a j i (b + 1)
    let j1 := partRetreat l a i1 j (b + 1)
    if i1 > j1 then (l, j1)
    else partLoop a b (lswap l i1 j1) (i1 + 1) (j1 - 1) fuel

/-- Go's `partition_func`: swap the pivot to `a`, two-pointer partition, swap the
pivot into its slot; returns the data, the pivot's final index and whether
the range was already partitioned. -/
def partitionRange (l : List String) (a b pivot : Nat) : List String × Nat × Bool :=
  let l0 := lswap l a pivot
  let i1 := partAdvance l0 a (b - 1) (a + 1) (b + 1)
  let j1 := partRetreat l0 a i1 (b - 1) (b + 1)
  if i1 > j1 then (lswap l0 j1 a, j1, true)
  else
    let r := partLoop a b (lswap l0 i1 j1) (i1 + 1) (j1 - 1) (b + 2)
    (lswap r.1 r.2 a, r.2, false)

/-- Go's `partitionEqual_func`, advance while equal to the pivot. -/
def partEqAdvance (l : List String) (a j : Nat) : Nat → Nat → Nat
  | i, 0 => i
  | i, fuel + 1 => if i ≤ j ∧ ¬ lless l a i then partEqAdvance l a j (i + 1) fuel else i

/-- Go's `partitionEqual_func`, retreat while above the pivot. -/
def partEqRetreat (l : List String) (a i : Nat) : Nat → Nat → Nat
  | j, 0 => j
  | j, fuel + 1 => if i ≤ j ∧ lless l a j then partEqRetreat l a i (j - 1) fuel else j

def partEqLoop (a b : Nat) : List String → Nat → Nat → Nat → List String × Nat
  | l, _, j, 0 => (l, j)
  | l, i, j, fuel + 1 =>
    let i1 := partEqAdvance l a j i (b + 1)
    let j1 := partEqRetreat l a i1 j (b + 1)
    if i1 > j1 then (l, j1)
    else partEqLoop a b (lswap l i1 j1) (i1 + 1) (j1 - 1) fuel

/-- Go's `partitionEqual_func`. -/
def partitionEqualRange (l : List String) (a b pivot : Nat) : List String × Nat :=
  partEqLoop a b (lswap l a pivot) (a + 1) (b - 1) (b + 2)

/-- The Marsaglia xorshift64 step used by `sort`'s `breakPatterns`. -/
def xorshiftStep (r : Nat) : Nat :=
  let m := 2 ^ 64
  let r1 := r ^^^ (r <<< 13 % m)
  let r2 := r1 ^^^ (r1 >>> 7)
  r2 ^^^ (r2 <<< 17 % m)

/-- Go's `bits.Len`. -/
def bitsLen (n : Nat) : Nat := if n = 0 then 0 else Nat.log2 n + 1

/-- Go's `breakPatterns_func`: three pseudo-random swaps around the midpoint,
seeded deterministically with the range length. -/
def breakPatterns (l : List String) (a b : Nat) : List String :=
  let len := b - a
  if len ≥ 8 then
    let modulus := 2 ^ bitsLen len
    let idx := a + len / 4 * 2 - 1
    let r1 := xorshiftStep len
    let o1 := r1 % modulus
    let l1 := lswap l (idx - 1) (a + (if o1 ≥ len then o1 - len else o1))
    let r2 := xorshiftStep r1
    let o2 := r2 % modulus
    let l2 := lswap l1 idx (a + (if o2 ≥ len then o2 - len else o2))
    let r3 := xorshiftStep r2
    let o3 := r3 % modulus
    lswap l2 (idx + 1) (a + (if o3 ≥ len then o3 - len else o3))
  else l

/-- One iteration of `pdqsort_func`'s loop past its two base cases:
optional `breakPatterns` with a `limit` decrement, pivot choice, optional
reversal, the `partialInsertionSort` shortcut, the many-duplicates
`partitionEqual` path, and otherwise a partition followed by a recursive
call on the shorter side (with the flags reset, as a fresh call) and a
continued loop on the longer side (with the updated flags).  The recursion
is abstracted as `rec`; `pdqsortLoop` ties the knot. -/
def pdqsortStep (rec : List String → Nat → Nat → Nat → Bool → Bool → List String)
    (l : List String) (a b limit : Nat) (wasBalanced wasPartitioned : Bool) : List String :=
  let lb := if ¬ wasBalanced then breakPatterns l a b else l
  let limit1 := if ¬ wasBalanced then limit - 1 else limit
  let pv := choosePivot lb a b
  let lr := if pv.2 = SortHint.decreasing then reverseRange lb a b else lb
  let pivot := if pv.2 = SortHint.decreasing then (b - 1) - (pv.1 - a) else pv.1
  let hint := if pv.2 = SortHint.decreasing then SortHint.increasing else pv.2
  let tryPartial := wasBalanced ∧ wasPartitioned ∧ hint = SortHint.increasing
  let pres := if tryPartial then partialInsertionSort lr a b else (lr, false)
  if tryPartial ∧ pres.2 = true then pres.1
  else
    if a > 0 ∧ ¬ lless pres.1 (a - 1) pivot then
      let pe := partitionEqualRange pres.1 a b pivot
      rec pe.1 pe.2 b limit1 wasBalanced wasPartitioned
    else
      let pr := partitionRange pres.1 a b pivot
      let wasBalanced1 := min (pr.2.1 - a) (b - pr.2.1) ≥ (b - a) / 8
      if pr.2.1 - a < b - pr.2.1 then
        rec (rec pr.1 a pr.2.1 limit1 true true) (pr.2.1 + 1) b limit1 wasBalanced1 pr.2.2
      else
        rec (rec pr.1 (pr.2.1 + 1) b limit1 true true) a pr.2.1 limit1 wasBalanced1 pr.2.2

/-- Go's `pdqsort_func`: the main loop.  `fuel` bounds the nesting depth of loop
iterations and recursive calls; `goSortSlice` passes more than the
algorithm can consume. -/
def pdqsortLoop : List String → Nat → Nat → Nat → Bool → Bool → Nat → List String
  | l, _, _, _, _, _, 0 => l
  | l, a, b, limit, wasBalanced, wasPartitioned, fuel + 1 =>
    if b - a ≤ 12 then insertionSortRange l a b
    else if limit = 0 then heapSortRange l a b
    else
      pdqsortStep (fun l1 a1 b1 lim1 wb1 wp1 => pdqsortLoop l1 a1 b1 lim1 wb1 wp1 fuel)
        l a b limit wasBalanced wasPartitioned

/-- Go's `sort.Slice` with `sortInPlace`'s comparator. -/
def goSortSlice (l : List String) : List String :=
  pdqsortLoop l 0 l.length (bitsLen l.length) true true (l.length * l.length + 64)

/-- The failure values of the store operations, named after the spec's error
taxonomy; each corresponds to one `error`-returning site in the source
(`os` read/write and config-dir failures ↦ `ioErr`, `json.Unmarshal`
failure ↦ `formatErr`, `"empty path"` ↦ `validation`,
`"index out of range"` ↦ `outOfRange`, `"path not found"` ↦ `notFound`). -/
inductive StoreError
  | ioErr | formatErr | validation | outOfRange | notFound
  deriving DecidableEq, Repr

/-- The in-memory state of `store.DB` (the `Path` field only names the
backing file and is irrelevant to the claims). -/
structure DB where
  items : List String
  deriving DecidableEq, Repr

/-- State of the backing `config.json`, as `load` distinguishes it:
absent (`os.ErrNotExist`), unreadable (any other read error), not valid per
the persisted schema (`json.Unmarshal` rejects it at the first token), or a
valid document with an `items` array. -/
inductive FileState
  | absent
  | unreadable
  | corrupt
  | valid (items : List String)
  deriving DecidableEq, Repr

/-- The world outside the process: the backing file and whether
`os.WriteFile` succeeds. -/
structure FS where
  file : FileState
  writeOk : Bool
  deriving DecidableEq, Repr

/-- Method `(*DB).save`: marshal and rewrite the whole document.  Marshalling of a
`DB` value never fails, so the only failure is the write itself. -/
def save (d : DB) (fs : FS) : FS × Option StoreError :=
  if fs.writeOk then ({ fs with file := .valid d.items }, none)
  else (fs, some .ioErr)

/-- Method `(*DB).load`: read the file (absent is not an error and leaves the items
untouched), unmarshal, and re-sort in memory.  Returns the possibly updated
`DB` together with the error value `load` returns, because the caller
`Open` *discards* that error. -/
def loadInto (d : DB) (file : FileState) : DB × Option StoreError :=
  match file with
  | .absent => (d, none)
  | .unreadable => (d, some .ioErr)
  | .corrupt => (d, some .formatErr)
  | .valid its => (⟨sortInPlace its⟩, none)

/-- The function `store.Open`: resolve the config dir, create it, then `_ = db.load()` —
note the discarded error: only the config-dir steps can fail `Open`. -/
def openStore (cfgDirOk mkdirOk : Bool) (fs : FS) : Except StoreError DB :=
  if !cfgDirOk then .error .ioErr
  else if !mkdirOk then .error .ioErr
  else .ok (loadInto ⟨[]⟩ fs.file).1

/-- Method `(*DB).Add`: normalize, reject the empty result, silently succeed if an
entry already normalizes to the same string, otherwise append the
*normalized* input, re-sort, and save.  The in-memory mutation happens
before the save, so it survives a failed write, as in the source. -/
def Add (isWin : Bool) (d : DB) (fs : FS) (p0 : String) : DB × FS × Option StoreError :=
  let p := normalize isWin p0
  if p = "" then (d, fs, some .validation)
  else if d.items.any (fun it => normalize isWin it == p) then (d, fs, none)
  else
    let d' : DB := ⟨sortInPlace (d.items ++ [p])⟩
    let r := save d' fs
    (d', r.1, r.2)

/-- Method `(*DB).List`: a copy of the current items (copying is identity in the
pure model). -/
def ListFn (d : DB) : List String := d.items

/-- Method `(*DB).RemoveIndex`: bounds-check (`i < 0 || i >= len(Items)`), remove
`Items[i]` via `append(Items[:i], Items[i+1:]...)`, save. -/
def RemoveIndex (d : DB) (fs : FS) (i : Int) : DB × FS × Option StoreError :=
  if i < 0 ∨ (d.items.length : Int) ≤ i then (d, fs, some .outOfRange)
  else
    let d' : DB := ⟨d.items.take i.toNat ++ d.items.drop (i.toNat + 1)⟩
    let r := save d' fs
    (d', r.1, r.2)

/-- Remove the first element satisfying `pred`; `none` when there is none.
Models the scan-and-splice loop of `RemovePath`. -/
def removeFirst (pred : String → Bool) : List String → Option (List String)
  | [] => none
  | x :: xs => if pred x then some xs else (removeFirst pred xs).map (fun ys => x :: ys)

/-- Method `(*DB).RemovePath`: normalize the argument, remove the first entry whose
normalization matches, save; `"path not found"` otherwise. -/
def RemovePath (isWin : Bool) (d : DB) (fs : FS) (p0 : String) : DB × FS × Option StoreError :=
  match removeFirst (fun it => normalize isWin it == normalize isWin p0) d.items with
  | none => (d, fs, some .notFound)
  | some its => (⟨its⟩, (save ⟨its⟩ fs).1, (save ⟨its⟩ fs).2)

/-- Value of a decimal digit string. -/
def digitVal (cs : List Char) : Nat := cs.foldl (fun a c => a * 10 + (c.toNat - 48)) 0

/-- Go's `fmt.Sscanf(s, "%d", &n)` on an already-trimmed string: an optional
single sign, then a maximal non-empty run of ASCII decimal digits (input
after the run is left unconsumed and is *not* an error for `Sscanf`);
the value must fit Go's 64-bit `int`, otherwise the scan reports a range
error.  `none` models a non-nil scan error. -/
def isDigitChar (c : Char) : Bool := decide (48 ≤ c.toNat) && decide (c.toNat ≤ 57)

/-- Whether the scanned token is negative: a leading `'-'`. -/
def negOf : List Char → Bool
  | c :: _ => c = '-'
  | [] => false

/-- The input after consuming an optional single sign character. -/
def restOf : List Char → List Char
  | c :: r => if c = '-' ∨ c = '+' then r else c :: r
  | [] => []

/-- Go's `strconv.ParseInt` bounds check for a 64-bit `int`: a value outside
`[-2^63, 2^63)` is a range error, reported by the scanner as a non-nil
error. -/
def rangeCheck (n : Int) : Option Int :=
  if n < -(2 ^ 63) ∨ (2 ^ 63 : Int) ≤ n then none else some n

/-- After the optional sign: a maximal non-empty run of ASCII decimal
digits (an empty run is a scan error; input after the run is left
unconsumed, which `Sscanf` does not treat as an error), bounds-checked. -/
def scanIntAux (neg : Bool) (rest : List Char) : Option Int :=
  if (rest.takeWhile isDigitChar).isEmpty then none
  else
    rangeCheck
      (if neg then -((digitVal (rest.takeWhile isDigitChar) : Nat) : Int)
       else ((digitVal (rest.takeWhile isDigitChar) : Nat) : Int))

/-- Go's `fmt.Sscanf(s, "%d", &n)` on an already-trimmed string: an optional
single sign, then a maximal non-empty digit run whose value must fit Go's
64-bit `int`; `none` models a non-nil scan error. -/
def scanIntGo (cs : List Char) : Option Int :=
  scanIntAux (negOf cs) (restOf cs)

/-- Go's `parseIndex` from `main.go`: scan `"%d"` from the trimmed argument and
reject non-positive values (`err != nil || n <= 0`). -/
def parseIndex (s : String) : Option Int :=
  match scanIntGo (trimSpace s).data with
  | none => none
  | some n => if n ≤ 0 then none else some n

/-- The `remove` arm of `main`: try the argument as a 1-based index first
and only fall back to path removal when `parseIndex` fails. -/
def removeCmd (isWin : Bool) (d : DB) (fs : FS) (arg : String) : DB × FS × Option StoreError :=
  match parseIndex arg with
  | some n => RemoveIndex d fs (n - 1)
  | none => RemovePath isWin d fs arg

/-- The entries of `l` whose case-folded form is `v`, in the order they have
in `l`.  A sort by the case-insensitive comparator is stable exactly when it
leaves every such sequence unchanged. -/
def tieClass (v : String) (l : List String) : List String :=
  l.filter (fun x => lowerStr x == v)

/-- Number of entries of `l` equivalent to the input `p` under the
normalized comparison `Add` and `RemovePath` use. -/
def countEquiv (isWin : Bool) (p : String) (l : List String) : Nat :=
  (l.filter (fun it => normalize isWin it == normalize isWin p)).length

/-- Fold `Add` over a list of inputs, threading the store and filesystem and
discarding the per-call error values, as a driver calling `Add` repeatedly
would. -/
def addAll (isWin : Bool) (st : DB × FS) (ps : List String) : DB × FS :=
  ps.foldl (fun st q => ((Add isWin st.1 st.2 q).1, (Add isWin st.1 st.2 q).2.1)) st

instance {ε α : Type} [DecidableEq ε] [DecidableEq α] : DecidableEq (Except ε α) := fun x y =>
  match x, y with
  | .ok a, .ok b =>
    if h : a = b then isTrue (by rw [h])
    else isFalse (by intro hc; cases hc; exact h rfl)
  | .error a, .error b =>
    if h : a = b then isTrue (by rw [h])
    else isFalse (by intro hc; cases hc; exact h rfl)
  | .ok _, .error _ => isFalse (fun hc => Except.noConfusion hc)
  | .error _, .ok _ => isFalse (fun hc => Except.noConfusion hc)

/-! ### Reachable store states -/

/-- The stores obtainable through the public operations: a successful
`Open`, followed by any sequence of `Add`, `RemoveIndex`, `RemovePath`,
each run against an arbitrary filesystem state. -/
inductive Reachable (isWin : Bool) : DB → Prop
  | opened (cfgDirOk mkdirOk : Bool) (fs : FS) (d : DB) :
      openStore cfgDirOk mkdirOk fs = .ok d → Reachable isWin d
  | added (d : DB) (fs : FS) (p : String) :
      Reachable isWin d → Reachable isWin (Add isWin d fs p).1
  | removedIndex (d : DB) (fs : FS) (i : Int) :
      Reachable isWin d → Reachable isWin (RemoveIndex d fs i).1
  | removedPath (d : DB) (fs : FS) (p : String) :
      Reachable isWin d → Reachable isWin (RemovePath isWin d fs p).1

/-! ### Order theory of the comparator -/

theorem charToNat_inj {a b : Char} (h : a.toNat = b.toNat) : a = b :=
  Char.ext (UInt32.toNat.inj h)

theorem lexLt_cons {x y : Char} {xs ys : List Char} :
    lexLt (x :: xs) (y :: ys) =
      (if x.toNat < y.toNat then true
       else if y.toNat < x.toNat then false else lexLt xs ys) := rfl

theorem lexLt_nil_right : ∀ l : List Char, lexLt l [] = false
  | [] => rfl
  | _ :: _ => rfl

theorem lexLt_irrefl : ∀ l : List Char, lexLt l l = false
  | [] => rfl
  | a :: as => by
    rw [lexLt_cons, if_neg (Nat.lt_irrefl _), if_neg (Nat.lt_irrefl _)]
    exact lexLt_irrefl as

theorem lexLt_trans :
    ∀ {a b c : List Char}, lexLt a b = true → lexLt b c = true → lexLt a c = true
  | _, [], _, hab, _ => by simp [lexLt_nil_right] at hab
  | _, _, [], _, hbc => by simp [lexLt_nil_right] at hbc
  | [], _ :: _, _ :: _, _, _ => rfl
  | x :: xs, y :: ys, z :: zs, hab, hbc => by
    rw [lexLt_cons] at hab hbc ⊢
    rcases Nat.lt_trichotomy x.toNat y.toNat with h1 | h1 | h1
    · rcases Nat.lt_trichotomy y.toNat z.toNat with h2 | h2 | h2
      · rw [if_pos (Nat.lt_trans h1 h2)]
      · rw [if_pos (h2 ▸ h1)]
      · rw [if_neg (by omega), if_pos h2] at hbc
        simp at hbc
    · rcases Nat.lt_trichotomy y.toNat z.toNat with h2 | h2 | h2
      · rw [if_pos (h1 ▸ h2)]
      · rw [if_neg (by omega), if_neg (by omega)] at hab hbc ⊢
        exact lexLt_trans hab hbc
      · rw [if_neg (by omega), if_pos h2] at hbc
        simp at hbc
    · rw [if_neg (by omega), if_pos h1] at hab
      simp at hab

theorem lexLt_asymm : ∀ {a b : List Char}, lexLt a b = true → lexLt b a = false
  | _, [], hab => by simp [lexLt_nil_right] at hab
  | [], _ :: _, _ => lexLt_nil_right _
  | x :: xs, y :: ys, hab => by
    rw [lexLt_cons] at hab ⊢
    rcases Nat.lt_trichotomy x.toNat y.toNat with h1 | h1 | h1
    · rw [if_neg (by omega), if_pos h1]
    · rw [if_neg (by omega), if_neg (by omega)] at hab ⊢
      exact lexLt_asymm hab
    · rw [if_neg (by omega), if_pos h1] at hab
      simp at hab

theorem lexLt_eq_of_both_false :
    ∀ {a b : List Char}, lexLt a b = false → lexLt b a = false → a = b
  | [], [], _, _ => rfl
  | [], _ :: _, hab, _ => by simp [lexLt] at hab
  | _ :: _, [], _, hba => by simp [lexLt] at hba
  | x :: xs, y :: ys, hab, hba => by
    rw [lexLt_cons] at hab hba
    rcases Nat.lt_trichotomy x.toNat y.toNat with h1 | h1 | h1
    · rw [if_pos h1] at hab; simp at hab
    · rw [if_neg (by omega), if_neg (by omega)] at hab hba
      rw [charToNat_inj h1, lexLt_eq_of_both_false hab hba]
    · rw [if_pos h1] at hba; simp at hba

theorem stringData_inj : ∀ {s t : String}, s.data = t.data → s = t
  | ⟨_⟩, ⟨_⟩, rfl => rfl

theorem lowerLt_eq (a b : String) :
    lowerLt a b = lexLt (lowerStr a).data (lowerStr b).data := rfl

theorem lowerLe_iff {a b : String} :
    lowerLe a b ↔ lexLt (lowerStr b).data (lowerStr a).data = false := Iff.rfl

theorem lowerLe_of_lowerLt {a b : String} (h : lowerLt a b = true) : lowerLe a b :=
  lexLt_asymm h

theorem lowerLe_of_not_lowerLt {a b : String} (h : lowerLt a b = false) : lowerLe b a := h

theorem lowerLe_trans {a b c : String} (h1 : lowerLe a b) (h2 : lowerLe b c) :
    lowerLe a c := by
  rw [lowerLe_iff] at h1 h2 ⊢
  rcases hab : lexLt (lowerStr a).data (lowerStr b).data with _ | _
  · rcases hca : lexLt (lowerStr c).data (lowerStr a).data with _ | _
    · rfl
    · have hdata : (lowerStr a).data = (lowerStr b).data := lexLt_eq_of_both_false hab h1
      rw [hdata] at hca
      rw [hca] at h2
      simp at h2
  · rcases hca : lexLt (lowerStr c).data (lowerStr a).data with _ | _
    · rfl
    · have := lexLt_trans hca hab
      rw [this] at h2
      simp at h2

theorem lowerLt_of_lt_of_le {a b c : String} (h1 : lowerLt a b = true) (h2 : lowerLe b c) :
    lowerLt a c = true := by
  rw [lowerLe_iff] at h2
  rw [lowerLt_eq] at h1 ⊢
  rcases hac : lexLt (lowerStr a).data (lowerStr c).data with _ | _
  · rcases hca : lexLt (lowerStr c).data (lowerStr a).data with _ | _
    · have hdata : (lowerStr a).data = (lowerStr c).data := lexLt_eq_of_both_false hac hca
      rw [← hdata] at h2
      rw [h1] at h2
      simp at h2
    · have := lexLt_trans hca h1
      rw [this] at h2
      simp at h2
  · rfl

theorem lowerLt_irrefl_of_eq {a b : String} (h : lowerStr a = lowerStr b) :
    lowerLt a b = false := by
  rw [lowerLt_eq, h]
  exact lexLt_irrefl _

/-! ### The insertion-sort model: permutation, sortedness, stability -/

theorem insertAfterTies_perm (x : String) (l : List String) :
    List.Perm (insertAfterTies x l) (x :: l) := by
  induction l with
  | nil => exact List.Perm.refl _
  | cons y ys ih =>
    unfold insertAfterTies
    rcases h : lowerLt x y with _ | _
    · simp only [Bool.false_eq_true, if_false]
      exact (ih.cons y).trans (List.Perm.swap x y ys)
    · simp only [if_true]
      exact List.Perm.refl _

theorem foldl_insert_perm :
    ∀ (l acc : List String),
      List.Perm (l.foldl (fun a x => insertAfterTies x a) acc) (acc ++ l)
  | [], acc => by simp
  | x :: xs, acc => by
    have h1 := foldl_insert_perm xs (insertAfterTies x acc)
    have h2 : List.Perm (insertAfterTies x acc ++ xs) (acc ++ x :: xs) :=
      (((insertAfterTies_perm x acc).append_right xs).trans List.perm_middle.symm)
    simpa using h1.trans h2

theorem sortInPlace_perm (l : List String) : List.Perm (sortInPlace l) l := by
  simpa using foldl_insert_perm l []

theorem insertAfterTies_pairwise {x : String} {l : List String}
    (h : l.Pairwise lowerLe) : (insertAfterTies x l).Pairwise lowerLe := by
  induction l with
  | nil => simp [insertAfterTies]
  | cons y ys ih =>
    unfold insertAfterTies
    rcases hx : lowerLt x y with _ | _
    · simp only [Bool.false_eq_true, if_false]
      refine List.Pairwise.cons ?_ (ih h.of_cons)
      intro z hz
      rcases List.mem_cons.mp (((insertAfterTies_perm x ys).mem_iff).mp hz) with hz' | hz'
      · exact hz' ▸ lowerLe_of_not_lowerLt hx
      · exact List.rel_of_pairwise_cons h hz'
    · simp only [if_true]
      refine List.Pairwise.cons ?_ h
      intro z hz
      rcases List.mem_cons.mp hz with hz' | hz'
      · exact hz' ▸ lowerLe_of_lowerLt hx
      · exact lowerLe_trans (lowerLe_of_lowerLt hx) (List.rel_of_pairwise_cons h hz')

theorem foldl_insert_pairwise :
    ∀ (l acc : List String), acc.Pairwise lowerLe →
      (l.foldl (fun acc x => insertAfterTies x acc) acc).Pairwise lowerLe
  | [], _, h => h
  | x :: xs, acc, h =>
    foldl_insert_pairwise xs (insertAfterTies x acc) (insertAfterTies_pairwise h)

theorem sortInPlace_pairwise (l : List String) : (sortInPlace l).Pairwise lowerLe :=
  foldl_insert_pairwise l [] (List.Pairwise.nil)

theorem tieClass_insert_of_ne {x v : String} {l : List String}
    (hx : (lowerStr x == v) = false) :
    tieClass v (insertAfterTies x l) = tieClass v l := by
  induction l with
  | nil => simp [tieClass, insertAfterTies, hx]
  | cons y ys ih =>
    unfold insertAfterTies
    rcases h : lowerLt x y with _ | _
    · simp only [Bool.false_eq_true, if_false]
      simp only [tieClass, List.filter_cons] at ih ⊢
      rw [ih]
    · simp only [if_true]
      simp [tieClass, List.filter_cons, hx]

theorem tieClass_insert_of_eq :
    ∀ {l : List String}, l.Pairwise lowerLe → ∀ {x v : String}, lowerStr x = v →
      tieClass v (insertAfterTies x l) = tieClass v l ++ [x]
  | [], _, x, v, hx => by simp [tieClass, insertAfterTies, hx]
  | y :: ys, hl, x, v, hx => by
    unfold insertAfterTies
    rcases h : lowerLt x y with _ | _
    · simp only [Bool.false_eq_true, if_false]
      have hrec := tieClass_insert_of_eq hl.of_cons hx
      simp only [tieClass, List.filter_cons] at hrec ⊢
      rcases hy : (lowerStr y == v) with _ | _
      · simpa [hy] using hrec
      · simpa [hy] using hrec
    · simp only [if_true]
      have hnil : tieClass v (y :: ys) = [] := by
        unfold tieClass
        rw [List.filter_eq_nil_iff]
        intro z hz
        have hle : lowerLt x z = true := by
          rcases List.mem_cons.mp hz with hz' | hz'
          · exact hz' ▸ h
          · exact lowerLt_of_lt_of_le h (List.rel_of_pairwise_cons hl hz')
        intro hzv
        have hxz : lowerStr x = lowerStr z := by
          rw [hx, (beq_iff_eq).mp hzv]
        rw [lowerLt_irrefl_of_eq hxz] at hle
        simp at hle
      have hxv : (lowerStr x == v) = true := by rw [hx]; exact beq_self_eq_true v
      have hstep : tieClass v (x :: y :: ys) = x :: tieClass v (y :: ys) := by
        simp [tieClass, List.filter_cons, hxv]
      rw [hstep, hnil]
      rfl

theorem tieClass_foldl_insert :
    ∀ (l acc : List String), acc.Pairwise lowerLe → ∀ v,
      tieClass v (l.foldl (fun a x => insertAfterTies x a) acc) =
        tieClass v acc ++ tieClass v l
  | [], acc, _, v => by simp [tieClass]
  | x :: xs, acc, hacc, v => by
    have hrec :=
      tieClass_foldl_insert xs (insertAfterTies x acc) (insertAfterTies_pairwise hacc) v
    simp only [List.foldl_cons]
    rw [hrec]
    rcases hx : (lowerStr x == v) with _ | _
    · rw [tieClass_insert_of_ne hx]
      simp [tieClass, List.filter_cons, hx]
    · rw [tieClass_insert_of_eq hacc ((beq_iff_eq).mp hx)]
      simp [tieClass, List.filter_cons, hx]

theorem sortInPlace_tieClass (v : String) (l : List String) :
    tieClass v (sortInPlace l) = tieClass v l := by
  have h := tieClass_foldl_insert l [] List.Pairwise.nil v
  simpa [sortInPlace, tieClass] using h

theorem insertAfterTies_eq_append {x : String} :
    ∀ {l : List String}, (∀ y ∈ l, lowerLt x y = false) →
      insertAfterTies x l = l ++ [x]
  | [], _ => rfl
  | y :: ys, h => by
    unfold insertAfterTies
    rw [h y (List.mem_cons_self y ys)]
    simp only [Bool.false_eq_true, if_false, List.cons_append, List.cons.injEq, true_and]
    exact insertAfterTies_eq_append (fun z hz => h z (List.mem_cons_of_mem _ hz))

theorem sortInPlace_of_pairwise : ∀ {l : List String}, l.Pairwise lowerLe → sortInPlace l = l := by
  intro l
  induction l using List.reverseRecOn with
  | nil => intro _; rfl
  | append_singleton l x ih =>
    intro h
    have hl : l.Pairwise lowerLe := h.sublist (List.sublist_append_left l [x])
    have hsplit : sortInPlace (l ++ [x]) = insertAfterTies x (sortInPlace l) := by
      simp [sortInPlace, List.foldl_append]
    have hx : ∀ y ∈ l, lowerLt x y = false := by
      intro y hy
      have hp := List.pairwise_append.mp h
      exact hp.2.2 y hy x (List.mem_singleton_self x)
    rw [hsplit, ih hl, insertAfterTies_eq_append hx]

/-! ### The index-based insertion sort of `sort.Slice` agrees with the
functional model on every input (in particular on the whole slice whenever
it has at most 12 elements, where pdqsort runs nothing else) -/

theorem lget_append (f rest : List String) (k : Nat) :
    lget (f ++ rest) (f.length + k) = lget rest k := by
  induction f with
  | nil => simp [lget]
  | cons a f ih =>
    simp only [List.cons_append, List.length_cons]
    rw [show f.length + 1 + k = (f.length + k) + 1 from by omega]
    show (f ++ rest).getD (f.length + k) "" = lget rest k
    exact ih

theorem lset_append (f rest : List String) (k : Nat) (x : String) :
    (f ++ rest).set (f.length + k) x = f ++ rest.set k x := by
  induction f with
  | nil => simp
  | cons a f ih =>
    simp only [List.cons_append, List.length_cons]
    rw [show f.length + 1 + k = (f.length + k) + 1 from by omega]
    show a :: (f ++ rest).set (f.length + k) x = a :: (f ++ rest.set k x)
    rw [ih]

theorem lswap_adjacent (f : List String) (y x : String) (back : List String) :
    lswap (f ++ y :: x :: back) (f.length + 1) f.length = f ++ x :: y :: back := by
  unfold lswap
  have hx : lget (f ++ y :: x :: back) (f.length + 1) = x := lget_append f (y :: x :: back) 1
  have hy : lget (f ++ y :: x :: back) (f.length + 0) = y := lget_append f (y :: x :: back) 0
  rw [show lget (f ++ y :: x :: back) f.length = y from hy, hx]
  rw [lset_append f (y :: x :: back) 1 y]
  rw [show ((y :: x :: back).set 1 y) = y :: y :: back from rfl]
  rw [show f.length = f.length + 0 from by omega]
  rw [lset_append f (y :: y :: back) 0 x]
  rfl

theorem lless_adjacent (f : List String) (y x : String) (back : List String) :
    lless (f ++ y :: x :: back) (f.length + 1) f.length = lowerLt x y := by
  unfold lless
  have hx : lget (f ++ y :: x :: back) (f.length + 1) = x := lget_append f (y :: x :: back) 1
  have hy : lget (f ++ y :: x :: back) (f.length + 0) = y := lget_append f (y :: x :: back) 0
  rw [hx, show lget (f ++ y :: x :: back) f.length = y from hy]

theorem insertAfterTies_append_singleton {x y : String} (h : lowerLt x y = true)
    (f : List String) :
    insertAfterTies x (f ++ [y]) = insertAfterTies x f ++ [y] := by
  induction f with
  | nil => simp [insertAfterTies, h]
  | cons z f ih =>
    show (if lowerLt x z = true then x :: z :: (f ++ [y]) else z :: insertAfterTies x (f ++ [y]))
      = (if lowerLt x z = true then x :: z :: f else z :: insertAfterTies x f) ++ [y]
    rcases hz : lowerLt x z with _ | _
    · simp [ih]
    · simp

theorem insSortInner_spec :
    ∀ (front : List String), front.Pairwise lowerLe → ∀ (x : String) (back : List String),
      insSortInner 0 (front ++ x :: back) front.length = insertAfterTies x front ++ back := by
  intro front
  induction front using List.reverseRecOn with
  | nil =>
    intro _ x back
    rfl
  | append_singleton f y ih =>
    intro hp x back
    have hf : f.Pairwise lowerLe := hp.sublist (List.sublist_append_left f [y])
    have hl : (f ++ [y]) ++ x :: back = f ++ y :: x :: back := by simp
    have hlen : (f ++ [y]).length = f.length + 1 := by simp
    rw [hl, hlen]
    simp only [insSortInner]
    rw [lless_adjacent, lswap_adjacent]
    rcases hxy : lowerLt x y with _ | _
    · simp only [Bool.false_eq_true, and_false, if_false]
      have hall : ∀ z ∈ f ++ [y], lowerLt x z = false := by
        intro z hz
        rcases List.mem_append.mp hz with hz1 | hz1
        · rcases hcon : lowerLt x z with _ | _
          · rfl
          · have hzy : lowerLe z y := by
              have hp2 := List.pairwise_append.mp hp
              exact hp2.2.2 z hz1 y (List.mem_singleton_self y)
            have hlt := lowerLt_of_lt_of_le hcon hzy
            rw [hlt] at hxy
            simp at hxy
        · rw [List.mem_singleton.mp hz1]
          exact hxy
      rw [insertAfterTies_eq_append hall]
      simp
    · simp only [if_true, Nat.zero_le, true_and]
      rw [ih hf x (y :: back)]
      rw [insertAfterTies_append_singleton hxy]
      simp

theorem insSortLoop_spec :
    ∀ (rest front : List String) (fuel : Nat), rest.length < fuel →
      front.Pairwise lowerLe →
      insSortLoop 0 (front.length + rest.length) (front ++ rest) front.length fuel =
        rest.foldl (fun acc x => insertAfterTies x acc) front
  | [], front, fuel + 1, _, _ => by
    simp [insSortLoop]
  | x :: rest, front, fuel + 1, hfuel, hp => by
    simp only [insSortLoop]
    rw [if_pos (by simp)]
    rw [insSortInner_spec front hp x rest]
    have hlen : (insertAfterTies x front).length = front.length + 1 := by
      simpa using (insertAfterTies_perm x front).length_eq
    have hcall := insSortLoop_spec rest (insertAfterTies x front) fuel
      (by simp at hfuel; omega) (insertAfterTies_pairwise hp)
    rw [hlen] at hcall
    rw [show front.length + (x :: rest).length = front.length + 1 + rest.length from by
      simp [List.length_cons]; omega]
    rw [hcall]
    rfl

theorem insertionSortRange_eq_sortInPlace (l : List String) :
    insertionSortRange l 0 l.length = sortInPlace l := by
  rcases l with _ | ⟨x, rest⟩
  · rfl
  · unfold insertionSortRange
    rw [show (x :: rest).length = [x].length + rest.length from by
      simp [List.length_cons]; omega]
    have h := insSortLoop_spec rest [x] ([x].length + rest.length + 1)
      (by simp; omega) (by simp)
    rw [show ((x :: rest) : List String) = [x] ++ rest from rfl]
    rw [show (0 + 1 : Nat) = [x].length from by simp]
    rw [h]
    rfl

set_option maxRecDepth 8000 in
theorem goSortSlice_small {l : List String} (h : l.length ≤ 12) :
    goSortSlice l = sortInPlace l := by
  unfold goSortSlice
  rw [show l.length * l.length + 64 = (l.length * l.length + 63) + 1 from rfl]
  simp only [pdqsortLoop]
  rw [if_pos (by omega)]
  exact insertionSortRange_eq_sortInPlace l

/-! ### Structural helpers -/

theorem removeFirst_sublist {pred : String → Bool} :
    ∀ {l l' : List String}, removeFirst pred l = some l' → l'.Sublist l
  | [], _, h => by simp [removeFirst] at h
  | x :: xs, l', h => by
    unfold removeFirst at h
    rcases hp : pred x with _ | _
    · rw [hp] at h
      simp only [Bool.false_eq_true, if_false] at h
      rcases Option.map_eq_some'.mp h with ⟨ys, hys, hcons⟩
      rw [← hcons]
      exact (removeFirst_sublist hys).cons₂ x
    · rw [hp] at h
      simp only [if_true, Option.some.injEq] at h
      exact h ▸ List.sublist_cons_self x xs

theorem take_drop_sublist (l : List String) (i : Nat) :
    (l.take i ++ l.drop (i + 1)).Sublist l := by
  rw [← List.eraseIdx_eq_take_drop_succ]
  exact List.eraseIdx_sublist l i

theorem cleanRun_ne_nil (rooted : Bool) :
    ∀ (es acc : List (List Char)), (∀ a ∈ acc, a ≠ []) →
      ∀ a ∈ cleanRun rooted acc es, a ≠ []
  | [], acc, hacc, a, ha => hacc a (by simpa [cleanRun] using ha)
  | e :: es, acc, hacc, a, ha => by
    unfold cleanRun at ha
    by_cases h1 : e = []
    · rw [if_pos h1] at ha
      exact cleanRun_ne_nil rooted es acc hacc a ha
    · rw [if_neg h1] at ha
      by_cases h2 : e = ['.']
      · rw [if_pos h2] at ha
        exact cleanRun_ne_nil rooted es acc hacc a ha
      · rw [if_neg h2] at ha
        by_cases h3 : e = ['.', '.']
        · rw [if_pos h3] at ha
          cases acc with
          | nil =>
            dsimp only at ha
            by_cases hro : rooted = true
            · rw [if_pos hro] at ha
              exact cleanRun_ne_nil rooted es [] (by simp) a ha
            · rw [if_neg hro] at ha
              refine cleanRun_ne_nil rooted es [e] ?_ a ha
              intro b hb
              rw [List.mem_singleton.mp hb, h3]
              simp
          | cons b rest =>
            dsimp only at ha
            by_cases h4 : b = ['.', '.']
            · rw [if_pos h4] at ha
              refine cleanRun_ne_nil rooted es (e :: b :: rest) ?_ a ha
              intro c hc
              rcases List.mem_cons.mp hc with hc' | hc'
              · rw [hc', h3]; simp
              · exact hacc c hc'
            · rw [if_neg h4] at ha
              exact cleanRun_ne_nil rooted es rest
                (fun c hc => hacc c (List.mem_cons_of_mem _ hc)) a ha
        · rw [if_neg h3] at ha
          refine cleanRun_ne_nil rooted es (e :: acc) ?_ a ha
          intro c hc
          rcases List.mem_cons.mp hc with hc' | hc'
          · exact hc' ▸ h1
          · exact hacc c hc'

theorem joinSlash_cons_ne_nil {p : List Char} (ps : List (List Char)) (hp : p ≠ []) :
    joinSlash (p :: ps) ≠ [] := by
  unfold joinSlash
  cases ps with
  | nil => simpa [List.intersperse]
  | cons q qs => simp [List.intersperse, hp]

theorem clean_ne_empty (s : String) : clean s ≠ "" := by
  unfold clean
  cases hd : s.data with
  | nil => decide
  | cons c cs =>
    by_cases hr : c = '/'
    · simp only [hr, if_pos rfl]
      intro h
      have h2 := congrArg String.data h
      simp at h2
    · simp only [if_neg hr]
      cases hparts : cleanRun (decide (c = '/')) [] (splitSlash (c :: cs)) with
      | nil => decide
      | cons p ps =>
        intro h
        dsimp only at h
        have h2 := congrArg String.data h
        have hp : p ≠ [] := by
          refine cleanRun_ne_nil (decide (c = '/')) (splitSlash (c :: cs)) [] (by simp) p ?_
          rw [hparts]
          exact List.mem_cons_self p ps
        exact joinSlash_cons_ne_nil ps hp (by simpa using h2)

theorem normalize_ne_empty (isWin : Bool) (p : String) : normalize isWin p ≠ "" := by
  unfold normalize
  rcases isWin with _ | _
  · simpa using clean_ne_empty (trimSpace p)
  · simp only [if_true]
    intro h
    have h2 := congrArg String.data h
    simp only [lowerStr] at h2
    have h3 : (clean (trimSpace p)).data = [] := List.map_eq_nil_iff.mp h2
    exact clean_ne_empty (trimSpace p) (stringData_inj (by simpa using h3))

theorem reachable_pairwise {isWin : Bool} {d : DB} (h : Reachable isWin d) :
    d.items.Pairwise lowerLe := by
  induction h with
  | opened cfg mkd fs d hopen =>
    unfold openStore at hopen
    rcases cfg with _ | _
    · simp at hopen
    · rcases mkd with _ | _
      · simp at hopen
      · simp only [Bool.not_true, Bool.false_eq_true, if_false, Except.ok.injEq] at hopen
        cases hf : fs.file with
        | absent => rw [hf] at hopen; rw [← hopen]; exact List.Pairwise.nil
        | unreadable => rw [hf] at hopen; rw [← hopen]; exact List.Pairwise.nil
        | corrupt => rw [hf] at hopen; rw [← hopen]; exact List.Pairwise.nil
        | valid its => rw [hf] at hopen; rw [← hopen]; exact sortInPlace_pairwise its
  | added d fs p _ ih =>
    unfold Add
    by_cases h1 : normalize isWin p = ""
    · rw [if_pos h1]; exact ih
    · rw [if_neg h1]
      rcases h2 : d.items.any (fun it => normalize isWin it == normalize isWin p) with _ | _
      · simp only [Bool.false_eq_true, if_false]
        exact sortInPlace_pairwise _
      · simp only [if_true]
        exact ih
  | removedIndex d fs i _ ih =>
    unfold RemoveIndex
    by_cases h1 : i < 0 ∨ (d.items.length : Int) ≤ i
    · rw [if_pos h1]; exact ih
    · rw [if_neg h1]
      exact ih.sublist (take_drop_sublist d.items i.toNat)
  | removedPath d fs p _ ih =>
    unfold RemovePath
    rcases h1 : removeFirst (fun it => normalize isWin it == normalize isWin p) d.items
      with _ | its
    · simp only [h1]
      exact ih
    · simp only [h1]
      exact ih.sublist (removeFirst_sublist h1)

/-! ### Claim theorems -/

/-- C4: after every sequence of `Open`/`Add`/`RemoveIndex`/`RemovePath`
operations, the list observed by `List()` is sorted case-insensitively:
every adjacent pair `(a, b)` of the result satisfies `lower a ≤ lower b`. -/
theorem c4_list_always_sorted (isWin : Bool) (d : DB) (h : Reachable isWin d) :
    List.Chain' lowerLe (ListFn d) :=
  (reachable_pairwise h).chain'

theorem c4_list_always_sorted_witness :
    List.Chain' lowerLe (ListFn (Add false ⟨["/b"]⟩ ⟨.absent, true⟩ "/A").1) :=
  c4_list_always_sorted false _
    (Reachable.added _ ⟨.absent, true⟩ "/A"
      (Reachable.opened true true ⟨.valid ["/b"], true⟩ ⟨["/b"]⟩ rfl))

theorem removeFirst_eq_none {pred : String → Bool} :
    ∀ {l : List String}, (∀ x ∈ l, pred x = false) → removeFirst pred l = none
  | [], _ => rfl
  | x :: xs, h => by
    unfold removeFirst
    rw [h x (List.mem_cons_self x xs)]
    simp only [Bool.false_eq_true, if_false]
    rw [removeFirst_eq_none (fun z hz => h z (List.mem_cons_of_mem _ hz))]
    rfl

/-- C7: `RemoveIndex` with an out-of-bounds index (including every index on
an empty list) fails with the out-of-range error, and `RemovePath` with no
normalized-matching entry fails with the not-found error; in both cases the
in-memory list and the filesystem are returned unchanged. -/
theorem c7_removal_failures_atomic :
    (∀ (d : DB) (fs : FS) (i : Int), i < 0 ∨ (d.items.length : Int) ≤ i →
      RemoveIndex d fs i = (d, fs, some .outOfRange)) ∧
    (∀ (isWin : Bool) (d : DB) (fs : FS) (p : String),
      (∀ it ∈ d.items, normalize isWin it ≠ normalize isWin p) →
      RemovePath isWin d fs p = (d, fs, some .notFound)) := by
  constructor
  · intro d fs i h
    unfold RemoveIndex
    rw [if_pos h]
  · intro isWin d fs p h
    unfold RemovePath
    have hnone :
        removeFirst (fun it => normalize isWin it == normalize isWin p) d.items = none :=
      removeFirst_eq_none (fun it hit => beq_eq_false_iff_ne.mpr (h it hit))
    simp only [hnone]

theorem c7_removal_failures_atomic_witness :
    RemoveIndex ⟨[]⟩ ⟨.absent, true⟩ 0 = (⟨[]⟩, ⟨.absent, true⟩, some .outOfRange) ∧
    RemovePath false ⟨["/a"]⟩ ⟨.valid ["/a"], true⟩ "/b" =
      (⟨["/a"]⟩, ⟨.valid ["/a"], true⟩, some .notFound) :=
  ⟨c7_removal_failures_atomic.1 ⟨[]⟩ ⟨.absent, true⟩ 0 (by decide),
   c7_removal_failures_atomic.2 false ⟨["/a"]⟩ ⟨.valid ["/a"], true⟩ "/b" (by decide)⟩

/-- C6: `Add` fails with the validation error (returning the store and the
filesystem unchanged) exactly when the input normalizes to the empty
string.  (By C9 the right-hand side never holds, so the branch is dead, but
the equivalence is exactly what the code's guard `if p == ""` computes.) -/
theorem c6_validation_error_iff_empty_normalize
    (isWin : Bool) (d : DB) (fs : FS) (p : String) :
    Add isWin d fs p = (d, fs, some .validation) ↔ normalize isWin p = "" := by
  constructor
  · intro h
    by_contra hne
    unfold Add at h
    rw [if_neg hne] at h
    rcases h2 : d.items.any (fun it => normalize isWin it == normalize isWin p) with _ | _
    · rw [h2] at h
      simp only [Bool.false_eq_true, if_false] at h
      unfold save at h
      rcases hw : fs.writeOk with _ | _
      · rw [hw] at h
        simp only [Bool.false_eq_true, if_false] at h
        have := congrArg (fun t => t.2.2) h
        simp at this
      · rw [hw] at h
        simp only [if_true] at h
        have := congrArg (fun t => t.2.2) h
        simp at this
    · rw [h2] at h
      simp only [if_true, Prod.mk.injEq] at h
      exact absurd h.2.2 (by simp)
  · intro h
    unfold Add
    rw [if_pos h]

/-- C9: `normalize` never returns the empty string (lexical cleaning maps
the empty string to `"."`), so the `"empty path"` branch of `Add` is
unreachable: every input, including the empty string, either succeeds or
fails only with the IO error of the persistence write. -/
theorem c9_empty_branch_unreachable (isWin : Bool) (d : DB) (fs : FS) (p : String) :
    normalize isWin p ≠ "" ∧ normalize isWin "" = "." ∧
    ((Add isWin d fs p).2.2 = none ∨ (Add isWin d fs p).2.2 = some .ioErr) := by
  refine ⟨normalize_ne_empty isWin p, ?_, ?_⟩
  · rcases isWin with _ | _ <;> decide
  · unfold Add
    rw [if_neg (normalize_ne_empty isWin p)]
    rcases h2 : d.items.any (fun it => normalize isWin it == normalize isWin p) with _ | _
    · simp only [Bool.false_eq_true, if_false]
      unfold save
      rcases hw : fs.writeOk with _ | _
      · simp
      · simp
    · simp

/-- C1 counterexample: with the backing file present but not valid JSON
(`corrupt`) or unreadable, `Open` succeeds with an empty list — it does not
fail with a `FormatError` (resp. `IOError`), because `Open` executes
`_ = db.load()` and throws the error away. -/
theorem c1_cex :
    openStore true true ⟨.corrupt, true⟩ = .ok ⟨[]⟩ ∧
    openStore true true ⟨.corrupt, true⟩ ≠ .error .formatErr ∧
    openStore true true ⟨.unreadable, true⟩ = .ok ⟨[]⟩ ∧
    openStore true true ⟨.unreadable, true⟩ ≠ .error .ioErr := by decide

/-- C1 amended: `Open` fails (with an IO error) only when the configuration
directory cannot be resolved or created; read and parse failures of the
backing file are discarded, so `Open` succeeds with an empty list whenever
the file is absent, unreadable, or invalid, and with the sorted contents
when the file is valid. -/
theorem c1_amended_open_ignores_load_errors (cfg mkd : Bool) (fs : FS) :
    openStore cfg mkd fs =
      (if cfg = true ∧ mkd = true then
        .ok ⟨match fs.file with
             | .valid its => sortInPlace its
             | _ => []⟩
       else .error .ioErr) := by
  rcases cfg with _ | _ <;> rcases mkd with _ | _ <;>
    rcases fs with ⟨file, w⟩ <;> cases file <;> rfl

theorem charOfNat_toNat {n : Nat} (h : n < 55296) : (Char.ofNat n).toNat = n := by
  have hv : n.isValidChar := Or.inl h
  unfold Char.ofNat
  rw [dif_pos hv]
  rfl

theorem toLowerChar_idem (c : Char) : toLowerChar (toLowerChar c) = toLowerChar c := by
  unfold toLowerChar
  by_cases h : 65 ≤ c.toNat ∧ c.toNat ≤ 90
  · rw [if_pos h]
    have ht : (Char.ofNat (c.toNat + 32)).toNat = c.toNat + 32 := charOfNat_toNat (by omega)
    rw [if_neg (by rw [ht]; omega)]
  · rw [if_neg h, if_neg h]

theorem lowerStr_idem (s : String) : lowerStr (lowerStr s) = lowerStr s := by
  unfold lowerStr
  have hmap : (s.data.map toLowerChar).map toLowerChar = s.data.map toLowerChar := by
    rw [List.map_map]
    exact List.map_congr_left (fun a _ => toLowerChar_idem a)
  exact congrArg String.mk hmap

/-- C2 counterexample: on a case-insensitive platform (`isWin = true`),
adding the mixed-case path `"X"` stores `"x"`: the persisted value is the
case-folded form, not the cleaned form with its original case (`"X"`). -/
theorem c2_cex :
    (Add true ⟨[]⟩ ⟨.absent, true⟩ "X").1.items = ["x"] ∧
    clean (trimSpace "X") = "X" ∧
    (Add true ⟨[]⟩ ⟨.absent, true⟩ "X").1.items ≠ ["X"] := by decide

/-- C2 amended: on case-insensitive platforms the case-folding is applied to
the stored value itself, not only for comparison: every entry `Add`
introduces equals `normalize true p` (the lower-cased cleaned input) and is
itself case-folded (a fixed point of `lowerStr`); the original case is not
retained. -/
theorem c2_amended_windows_stores_folded (d : DB) (fs : FS) (p it : String)
    (h : it ∈ (Add true d fs p).1.items) :
    it ∈ d.items ∨ (it = normalize true p ∧ lowerStr it = it) := by
  unfold Add at h
  by_cases h1 : normalize true p = ""
  · rw [if_pos h1] at h
    exact Or.inl h
  · rw [if_neg h1] at h
    rcases h2 : d.items.any (fun x => normalize true x == normalize true p) with _ | _
    · rw [h2] at h
      simp only [Bool.false_eq_true, if_false] at h
      have hmem := (sortInPlace_perm (d.items ++ [normalize true p])).mem_iff.mp h
      rcases List.mem_append.mp hmem with hmem' | hmem'
      · exact Or.inl hmem'
      · refine Or.inr ⟨List.mem_singleton.mp hmem', ?_⟩
        rw [List.mem_singleton.mp hmem']
        exact lowerStr_idem (clean (trimSpace p))
    · rw [h2] at h
      simp only [if_true] at h
      exact Or.inl h

theorem c2_amended_windows_stores_folded_witness :
    "x" ∈ (⟨[]⟩ : DB).items ∨ ("x" = normalize true "X" ∧ lowerStr "x" = "x") :=
  c2_amended_windows_stores_folded ⟨[]⟩ ⟨.absent, true⟩ "X" "x" (by decide)

/-- A duplicate `Add` is a silent no-op whenever some entry normalizes to
the normalization of the argument. -/
theorem add_noop_of_equiv {isWin : Bool} {d : DB} {fs : FS} {q p : String}
    (hq : normalize isWin q = normalize isWin p)
    (hc : 1 ≤ countEquiv isWin p d.items) :
    Add isWin d fs q = (d, fs, none) := by
  have hex : d.items.any (fun it => normalize isWin it == normalize isWin q) = true := by
    unfold countEquiv at hc
    rcases hfil : d.items.filter (fun it => normalize isWin it == normalize isWin p)
      with _ | ⟨it, rest⟩
    · rw [hfil] at hc; simp at hc
    · have hmem : it ∈ d.items.filter (fun it => normalize isWin it == normalize isWin p) :=
        hfil ▸ List.mem_cons_self it rest
      have hsp := List.mem_filter.mp hmem
      rw [List.any_eq_true]
      exact ⟨it, hsp.1, by rw [hq]; exact hsp.2⟩
  unfold Add
  rw [if_neg (normalize_ne_empty isWin q), hex]
  simp

/-- Adding `p` to a store with no equivalent entry puts the count of
equivalent entries at exactly one, provided the normalized form of `p` is
itself a fixed point of `normalize`. -/
theorem countEquiv_add_first {isWin : Bool} {d : DB} {fs : FS} {p : String}
    (hfix : normalize isWin (normalize isWin p) = normalize isWin p)
    (h0 : countEquiv isWin p d.items = 0) :
    countEquiv isWin p (Add isWin d fs p).1.items = 1 := by
  have hall : ∀ it ∈ d.items, (normalize isWin it == normalize isWin p) = false := by
    intro it hit
    unfold countEquiv at h0
    have hnil := List.length_eq_zero.mp h0
    have h2 := List.filter_eq_nil_iff.mp hnil it hit
    simpa using h2
  have hany : d.items.any (fun it => normalize isWin it == normalize isWin p) = false := by
    rcases hany : d.items.any (fun it => normalize isWin it == normalize isWin p) with _ | _
    · rfl
    · rcases List.any_eq_true.mp hany with ⟨it, hit, hbeq⟩
      rw [hall it hit] at hbeq
      simp at hbeq
  unfold Add
  rw [if_neg (normalize_ne_empty isWin p), hany]
  simp only [Bool.false_eq_true, if_false]
  unfold countEquiv
  rw [← List.countP_eq_length_filter,
    (sortInPlace_perm (d.items ++ [normalize isWin p])).countP_eq,
    List.countP_append]
  have hc0 : d.items.countP (fun it => normalize isWin it == normalize isWin p) = 0 := by
    rw [List.countP_eq_length_filter]
    unfold countEquiv at h0
    exact h0
  have hc1 : List.countP (fun it => normalize isWin it == normalize isWin p)
      [normalize isWin p] = 1 := by
    simp [List.countP_cons, hfix]
  rw [hc0, hc1]

theorem addAll_noop (isWin : Bool) (p : String) :
    ∀ (qs : List String) (st : DB × FS),
      (∀ q ∈ qs, normalize isWin q = normalize isWin p) →
      countEquiv isWin p st.1.items = 1 →
      countEquiv isWin p (addAll isWin st qs).1.items = 1
  | [], _, _, h1 => h1
  | q :: qs, st, hqs, h1 => by
    have hnoop : Add isWin st.1 st.2 q = (st.1, st.2, none) :=
      add_noop_of_equiv (hqs q (List.mem_cons_self q qs)) (by omega)
    unfold addAll
    simp only [List.foldl_cons, hnoop]
    exact addAll_noop isWin p qs st (fun r hr => hqs r (List.mem_cons_of_mem _ hr)) h1

/-- C5 counterexample: `normalize` is not idempotent
(`normalize "a /" = "a "` but `normalize "a " = "a"`), so adding the same
input `"a /"` twice to an empty store appends a second copy: the duplicate
check compares `normalize(entry)` with the *already normalized* input and
misses.  The resulting list holds two identical entries, and the number of
entries equivalent to the input is 0, not 1. -/
theorem c5_cex :
    (Add false ⟨[]⟩ ⟨.absent, true⟩ "a /").1.items = ["a "] ∧
    (Add false (Add false ⟨[]⟩ ⟨.absent, true⟩ "a /").1
        (Add false ⟨[]⟩ ⟨.absent, true⟩ "a /").2.1 "a /").1.items = ["a ", "a "] ∧
    countEquiv false "a /"
        (Add false (Add false ⟨[]⟩ ⟨.absent, true⟩ "a /").1
          (Add false ⟨[]⟩ ⟨.absent, true⟩ "a /").2.1 "a /").1.items ≠ 1 := by decide

/-- C5 amended: restricted to inputs whose normalized form is a fixed point
of `normalize` (which the counterexample shows is not automatic), `Add` is
idempotent: starting from a store with no equivalent entry, adding `p` and
then any number of normalized-equivalent variants leaves exactly one
equivalent entry, and every `Add` against a store that already has an
equivalent entry is a silent no-op returning success. -/
theorem c5_amended_idempotent_for_fixed_points
    (isWin : Bool) (d : DB) (fs : FS) (p : String) (qs : List String)
    (hfix : normalize isWin (normalize isWin p) = normalize isWin p)
    (h0 : countEquiv isWin p d.items = 0)
    (hqs : ∀ q ∈ qs, normalize isWin q = normalize isWin p) :
    countEquiv isWin p (addAll isWin (d, fs) (p :: qs)).1.items = 1 ∧
    (∀ (d' : DB) (fs' : FS) (q : String), normalize isWin q = normalize isWin p →
      1 ≤ countEquiv isWin p d'.items → Add isWin d' fs' q = (d', fs', none)) := by
  constructor
  · unfold addAll
    simp only [List.foldl_cons]
    exact addAll_noop isWin p qs _ hqs (countEquiv_add_first hfix h0)
  · intro d' fs' q hq hc
    exact add_noop_of_equiv hq hc

theorem c5_amended_idempotent_for_fixed_points_witness :
    countEquiv false "/tmp/a"
      (addAll false (⟨[]⟩, ⟨.absent, true⟩) ["/tmp/a", "/tmp/a"]).1.items = 1 :=
  (c5_amended_idempotent_for_fixed_points false ⟨[]⟩ ⟨.absent, true⟩ "/tmp/a" ["/tmp/a"]
    (by decide) (by decide) (by decide)).1

theorem openStore_valid (L : List String) (w : Bool) :
    openStore true true ⟨.valid L, w⟩ = .ok ⟨sortInPlace L⟩ := rfl

/-- C8: starting from an absent backing file with working writes, `Open`
yields the empty store; `Add x` then `Add y` (with distinct stored forms)
succeeds, `List()` is the case-insensitively sorted sequence of the two
stored forms `normalize x` and `normalize y`, and re-opening from the saved
file yields exactly the same store — the round-trip is the identity. -/
theorem c8_roundtrip (isWin : Bool) (x y : String) (fs0 : FS)
    (habs : fs0.file = .absent) (hw : fs0.writeOk = true)
    (hne : normalize isWin (normalize isWin x) ≠ normalize isWin y) :
    openStore true true fs0 = .ok ⟨[]⟩ ∧
    (Add isWin (Add isWin ⟨[]⟩ fs0 x).1 (Add isWin ⟨[]⟩ fs0 x).2.1 y).2.2 = none ∧
    ListFn (Add isWin (Add isWin ⟨[]⟩ fs0 x).1 (Add isWin ⟨[]⟩ fs0 x).2.1 y).1 =
      sortInPlace [normalize isWin x, normalize isWin y] ∧
    openStore true true
        (Add isWin (Add isWin ⟨[]⟩ fs0 x).1 (Add isWin ⟨[]⟩ fs0 x).2.1 y).2.1 =
      .ok (Add isWin (Add isWin ⟨[]⟩ fs0 x).1 (Add isWin ⟨[]⟩ fs0 x).2.1 y).1 := by
  rcases fs0 with ⟨file, w⟩
  simp only at habs hw
  subst habs
  subst hw
  have hAdd1 : Add isWin ⟨[]⟩ ⟨.absent, true⟩ x =
      (⟨[normalize isWin x]⟩, ⟨.valid [normalize isWin x], true⟩, none) := by
    unfold Add
    rw [if_neg (normalize_ne_empty isWin x)]
    simp [sortInPlace, insertAfterTies, save]
  have hbeq : (normalize isWin (normalize isWin x) == normalize isWin y) = false :=
    beq_eq_false_iff_ne.mpr hne
  have hAdd2 : Add isWin ⟨[normalize isWin x]⟩ ⟨.valid [normalize isWin x], true⟩ y =
      (⟨sortInPlace [normalize isWin x, normalize isWin y]⟩,
       ⟨.valid (sortInPlace [normalize isWin x, normalize isWin y]), true⟩, none) := by
    unfold Add
    rw [if_neg (normalize_ne_empty isWin y)]
    have hany : [normalize isWin x].any
        (fun it => normalize isWin it == normalize isWin y) = false := by
      simp [hbeq]
    rw [hany]
    simp [save]
  rw [hAdd1]
  dsimp only
  rw [hAdd2]
  refine ⟨rfl, rfl, rfl, ?_⟩
  rw [openStore_valid]
  rw [sortInPlace_of_pairwise (sortInPlace_pairwise _)]

theorem c8_roundtrip_witness :
    openStore true true (⟨.absent, true⟩ : FS) = .ok ⟨[]⟩ ∧
    (Add false (Add false ⟨[]⟩ ⟨.absent, true⟩ "/tmp/b").1
        (Add false ⟨[]⟩ ⟨.absent, true⟩ "/tmp/b").2.1 "/tmp/a").2.2 = none ∧
    ListFn (Add false (Add false ⟨[]⟩ ⟨.absent, true⟩ "/tmp/b").1
        (Add false ⟨[]⟩ ⟨.absent, true⟩ "/tmp/b").2.1 "/tmp/a").1 =
      sortInPlace [normalize false "/tmp/b", normalize false "/tmp/a"] ∧
    openStore true true
        (Add false (Add false ⟨[]⟩ ⟨.absent, true⟩ "/tmp/b").1
          (Add false ⟨[]⟩ ⟨.absent, true⟩ "/tmp/b").2.1 "/tmp/a").2.1 =
      .ok (Add false (Add false ⟨[]⟩ ⟨.absent, true⟩ "/tmp/b").1
          (Add false ⟨[]⟩ ⟨.absent, true⟩ "/tmp/b").2.1 "/tmp/a").1 :=
  c8_roundtrip false "/tmp/b" "/tmp/a" ⟨.absent, true⟩ rfl rfl (by decide)

theorem takeWhile_all {p : Char → Bool} :
    ∀ {l : List Char}, (∀ c ∈ l, p c = true) → l.takeWhile p = l
  | [], _ => rfl
  | c :: cs, h => by
    rw [List.takeWhile_cons, h c (List.mem_cons_self c cs)]
    simp only [if_true]
    rw [takeWhile_all (fun z hz => h z (List.mem_cons_of_mem _ hz))]

theorem digit_not_sign {c : Char} (h : isDigitChar c = true) : ¬(c = '-' ∨ c = '+') := by
  unfold isDigitChar at h
  simp only [Bool.and_eq_true, decide_eq_true_eq] at h
  rintro (rfl | rfl) <;> exact absurd h (by decide)

theorem scanIntGo_digits {cs : List Char} (hne : cs ≠ [])
    (hdig : ∀ c ∈ cs, isDigitChar c = true) (hlt : (digitVal cs : Int) < 2 ^ 63) :
    scanIntGo cs = some ((digitVal cs : Nat) : Int) := by
  rcases cs with _ | ⟨c, rest⟩
  · exact absurd rfl hne
  · have hc : isDigitChar c = true := hdig c (List.mem_cons_self c rest)
    have hsign := digit_not_sign hc
    have hcm : negOf (c :: rest) = false := by
      unfold negOf
      apply decide_eq_false
      intro hcc
      exact hsign (Or.inl hcc)
    have hrest : restOf (c :: rest) = c :: rest := by
      show (if c = '-' ∨ c = '+' then rest else c :: rest) = c :: rest
      rw [if_neg hsign]
    unfold scanIntGo
    rw [hcm, hrest]
    unfold scanIntAux
    rw [takeWhile_all hdig]
    simp only [List.isEmpty_cons, Bool.false_eq_true, if_false]
    unfold rangeCheck
    have hge : (0 : Int) ≤ ((digitVal (c :: rest) : Nat) : Int) := Int.natCast_nonneg _
    rw [if_neg (by omega)]

theorem parseIndex_digits (s : String) (hne : (trimSpace s).data ≠ [])
    (hdig : ∀ c ∈ (trimSpace s).data, isDigitChar c = true)
    (h1 : 1 ≤ digitVal (trimSpace s).data)
    (h2 : (digitVal (trimSpace s).data : Int) < 2 ^ 63) :
    parseIndex s = some ((digitVal (trimSpace s).data : Nat) : Int) := by
  unfold parseIndex
  rw [scanIntGo_digits hne hdig h2]
  dsimp only
  rw [if_neg (by omega)]

theorem parseIndex_zero_digits (s : String)
    (hdig : ∀ c ∈ (trimSpace s).data, isDigitChar c = true)
    (h0 : digitVal (trimSpace s).data = 0) :
    parseIndex s = none := by
  unfold parseIndex
  rcases hcs : (trimSpace s).data with _ | ⟨c, rest⟩
  · rfl
  · rw [hcs] at hdig h0
    have hd2 : ((digitVal (c :: rest) : Nat) : Int) < 2 ^ 63 := by rw [h0]; decide
    rw [scanIntGo_digits (List.cons_ne_nil c rest) hdig hd2]
    dsimp only
    rw [if_pos (by rw [h0]; decide)]

theorem scanIntAux_neg_nonpos {rest : List Char} {n : Int}
    (h : scanIntAux true rest = some n) : n ≤ 0 := by
  unfold scanIntAux at h
  rcases hds : (rest.takeWhile isDigitChar).isEmpty with _ | _
  · rw [hds] at h
    simp at h
    unfold rangeCheck at h
    by_cases hrange :
        -((digitVal (rest.takeWhile isDigitChar) : Nat) : Int) < -(2 ^ 63) ∨
          (2 ^ 63 : Int) ≤ -((digitVal (rest.takeWhile isDigitChar) : Nat) : Int)
    · rw [if_pos hrange] at h
      exact absurd h (by simp)
    · rw [if_neg hrange] at h
      have hge : (0 : Int) ≤ ((digitVal (rest.takeWhile isDigitChar) : Nat) : Int) :=
        Int.natCast_nonneg _
      have hn := (Option.some.injEq _ _).mp h
      omega
  · rw [hds] at h
    simp at h

theorem parseIndex_minus (s : String) (cs : List Char)
    (h : (trimSpace s).data = '-' :: cs) :
    parseIndex s = none := by
  unfold parseIndex
  rw [h]
  have hneg : negOf ('-' :: cs) = true := rfl
  have hrest : restOf ('-' :: cs) = cs := by
    show (if ('-' : Char) = '-' ∨ ('-' : Char) = '+' then cs else '-' :: cs) = cs
    rw [if_pos (Or.inl rfl)]
  unfold scanIntGo
  rw [hneg, hrest]
  rcases hscan : scanIntAux true cs with _ | n
  · rfl
  · dsimp only
    rw [if_pos (scanIntAux_neg_nonpos hscan)]

/-- C10: in the CLI's `remove` command, an argument accepted by
`parseIndex` is always interpreted as a 1-based index (translated to the
0-based `RemoveIndex`) and never as a path; `RemovePath` runs only when
`parseIndex` fails.  `parseIndex` accepts exactly the arguments whose
trimmed text scans as a positive decimal integer fitting a 64-bit int: a
digit string with value in `[1, 2^63)` parses to its value, while a digit
string of value `0` and a `'-'`-prefixed argument are rejected (falling
back to path removal).  Hence a stored bookmark whose text is such a
positive integer is never removed by path through the CLI. -/
theorem c10_remove_prefers_index :
    (∀ (arg : String) (n : Int) (isWin : Bool) (d : DB) (fs : FS),
      parseIndex arg = some n → removeCmd isWin d fs arg = RemoveIndex d fs (n - 1)) ∧
    (∀ (arg : String) (isWin : Bool) (d : DB) (fs : FS),
      parseIndex arg = none → removeCmd isWin d fs arg = RemovePath isWin d fs arg) ∧
    (∀ s : String, (trimSpace s).data ≠ [] →
      (∀ c ∈ (trimSpace s).data, isDigitChar c = true) →
      1 ≤ digitVal (trimSpace s).data →
      ((digitVal (trimSpace s).data : Int) < 2 ^ 63) →
      parseIndex s = some ((digitVal (trimSpace s).data : Nat) : Int)) ∧
    (∀ s : String, (∀ c ∈ (trimSpace s).data, isDigitChar c = true) →
      digitVal (trimSpace s).data = 0 → parseIndex s = none) ∧
    (∀ (s : String) (cs : List Char), (trimSpace s).data = '-' :: cs →
      parseIndex s = none) := by
  refine ⟨?_, ?_, parseIndex_digits, parseIndex_zero_digits, parseIndex_minus⟩
  · intro arg n isWin d fs h
    unfold removeCmd
    rw [h]
  · intro arg isWin d fs h
    unfold removeCmd
    rw [h]

theorem c10_remove_prefers_index_witness :
    removeCmd false ⟨["7", "x"]⟩ ⟨.absent, true⟩ "2" =
      RemoveIndex ⟨["7", "x"]⟩ ⟨.absent, true⟩ 1 ∧
    removeCmd false ⟨["7", "x"]⟩ ⟨.absent, true⟩ "zzz" =
      RemovePath false ⟨["7", "x"]⟩ ⟨.absent, true⟩ "zzz" ∧
    parseIndex "7" = some 7 ∧ parseIndex "0" = none ∧ parseIndex "-3" = none :=
  ⟨c10_remove_prefers_index.1 "2" 2 false ⟨["7", "x"]⟩ ⟨.absent, true⟩ (by decide),
   c10_remove_prefers_index.2.1 "zzz" false ⟨["7", "x"]⟩ ⟨.absent, true⟩ (by decide),
   c10_remove_prefers_index.2.2.1 "7" (by decide) (by decide) (by decide) (by decide),
   c10_remove_prefers_index.2.2.2.1 "0" (by decide) (by decide),
   c10_remove_prefers_index.2.2.2.2 "-3" ['3'] (by decide)⟩

/-- C3 counterexample: `sort.Slice` (pdqsort, `goSortSlice`) is not stable.
The 13-element list below is exactly what `Add` hands to `sortInPlace`
after twelve adds (a sorted list — built entirely within the ≤ 12-element
insertion-sort regime, where `sort.Slice` is stable) followed by the
appended thirteenth path `"/0"`: the case-tie pair `"/F"` (inserted first)
and `"/f"` comes out as `"/f", "/F"` — insertion order reversed — whereas
the stable model `sortInPlace` keeps `"/F", "/f"`. -/
theorem c3_cex :
    goSortSlice ["/a", "/b", "/c", "/d", "/e", "/F", "/f", "/g", "/h", "/i", "/j", "/k", "/0"] =
      ["/0", "/a", "/b", "/c", "/d", "/e", "/f", "/F", "/g", "/h", "/i", "/j", "/k"] ∧
    tieClass "/f" ["/a", "/b", "/c", "/d", "/e", "/F", "/f", "/g", "/h", "/i", "/j", "/k", "/0"] =
      ["/F", "/f"] ∧
    tieClass "/f"
        (goSortSlice
          ["/a", "/b", "/c", "/d", "/e", "/F", "/f", "/g", "/h", "/i", "/j", "/k", "/0"]) =
      ["/f", "/F"] ∧
    goSortSlice ["/a", "/b", "/c", "/d", "/e", "/F", "/f", "/g", "/h", "/i", "/j", "/k", "/0"] ≠
      sortInPlace ["/a", "/b", "/c", "/d", "/e", "/F", "/f", "/g", "/h", "/i", "/j", "/k", "/0"] := by
  decide

/-- C3 amended: the sort applied after every mutation retains the relative
insertion order of paths comparing equal only within Go's insertion-sort
regime: for lists of at most 12 elements, the algorithm `sort.Slice` runs
(`goSortSlice`) coincides with the stable insertion sort `sortInPlace`,
which preserves every tie class (the subsequence of entries with a given
case-folded form).  Beyond 12 elements `sort.Slice` guarantees only the
ordering, not stability, and `c3_cex` shows a 13-element list arising from
`Add` whose ties it reorders. -/
theorem c3_amended_stable_only_small (v : String) (l : List String) (h : l.length ≤ 12) :
    goSortSlice l = sortInPlace l ∧
    tieClass v (sortInPlace l) = tieClass v l :=
  ⟨goSortSlice_small h, sortInPlace_tieClass v l⟩

theorem c3_amended_stable_only_small_witness :
    goSortSlice ["/b", "/A", "/a"] = sortInPlace ["/b", "/A", "/a"] ∧
    tieClass "/a" (sortInPlace ["/b", "/A", "/a"]) = tieClass "/a" ["/b", "/A", "/a"] :=
  c3_amended_stable_only_small "/a" ["/b", "/A", "/a"] (by decide)

example : clean "/a/../b" = "/b" := by decide
example : clean "" = "." := by decide
example : clean "a//b/./c" = "a/b/c" := by decide
example : clean "../a/../.." = "../.." := by decide
example : clean "/.." = "/" := by decide
example : clean "/" = "/" := by decide
example : clean "a/b/" = "a/b" := by decide
example : clean "a /" = "a " := by decide
example : normalize false "  /tmp/a  " = "/tmp/a" := by decide
example : normalize true "X" = "x" := by decide
example : normalize false "" = "." := by decide
example : normalize false "a /" = "a " := by decide
example : normalize false "a " = "a" := by decide

example :
    (Add false (Add false (Add false ⟨[]⟩ ⟨.absent, true⟩ "/zeta").1
        (Add false ⟨[]⟩ ⟨.absent, true⟩ "/zeta").2.1 "/alpha").1
      (Add false (Add false ⟨[]⟩ ⟨.absent, true⟩ "/zeta").1
        (Add false ⟨[]⟩ ⟨.absent, true⟩ "/zeta").2.1 "/alpha").2.1
      "/beta").1.items = ["/alpha", "/beta", "/zeta"] := by decide

example : (Add true ⟨[]⟩ ⟨.absent, true⟩ "X").1.items = ["x"] := by decide

example : parseIndex "2" = some 2 := by decide
example : parseIndex "0" = none := by decide
example : parseIndex "-3" = none := by decide
example : parseIndex "abc" = none := by decide
example : parseIndex " 7 " = some 7 := by decide
example : parseIndex "12abc" = some 12 := by decide
example : parseIndex "+05" = some 5 := by decide

end Stashdir
